import Mathlib

/-!
Verification of the `skip` reverse proxy (scion-apps).

Shallow embedding of `skip/main.go`: the address codec (`demunge` and the
munged-address pattern `^(\d+)-([_\dA-Fa-f]+)-(.*)$`) and the rewriting
proxy pipeline (`ServeHTTP`, `copyAndReplaceHeader`, `copyAndReplace`,
`replaceMunged`), together with theorems settling the specification claims.

Strings are modelled by Lean `String` / `List Char`.  The Go regular
expression is anchored, `.` does not match a newline and `$` matches only
at the end of the text, so the third capture group is any newline-free
tail; the first two groups are the maximal digit run and the maximal
run over `[_0-9A-Fa-f]`, each of which must be followed by a literal '-'.
-/

namespace SkipProxy

/-- Character class `\d` of the Go pattern (ASCII digits). -/
def isDig (c : Char) : Bool := c.isDigit

/-- Character class `[_\dA-Fa-f]` of the Go pattern. -/
def isHexU (c : Char) : Bool :=
  c = '_' || c.isDigit || ('A' ≤ c && c ≤ 'F') || ('a' ≤ c && c ≤ 'f')

/-- Embedding of `mungedScionAddr.FindStringSubmatch` for the anchored
pattern `^(\d+)-([_\dA-Fa-f]+)-(.*)$`: returns the three capture groups,
or `none` when the hostname does not match.  Greedy matching makes the
first group the maximal digit run and the second the maximal
hex/underscore run; `.*` excludes newlines. -/
def findSubmatch (s : List Char) : Option (List Char × List Char × List Char) :=
  match s.dropWhile isDig with
  | c1 :: r2 =>
    if c1 = '-' ∧ s.takeWhile isDig ≠ [] then
      match r2.dropWhile isHexU with
      | c2 :: c =>
        if c2 = '-' ∧ r2.takeWhile isHexU ≠ [] ∧ '\n' ∉ c then
          some (s.takeWhile isDig, r2.takeWhile isHexU, c)
        else none
      | [] => none
    else none
  | [] => none

/-- Embedding of `strings.ReplaceAll(·, "_", ":")`, which acts characterwise. -/
def underToColon (c : Char) : Char := if c = '_' then ':' else c

/-- Embedding of `strings.TrimSuffix`: removes at most one trailing
occurrence of `suf`. -/
def trimSuffix (s suf : String) : String :=
  if suf.data.isSuffixOf s.data then ⟨s.data.take (s.data.length - suf.data.length)⟩ else s

/-- Embedding of `demunge` from `skip/main.go`: on a pattern match,
rebuild the canonical bracketed address with underscores restored to
colons; otherwise pass the hostname through with a trailing `.scion`
stripped. -/
def demunge (host : String) : String :=
  match findSubmatch host.data with
  | some (a, b, c) =>
    "[" ++ (⟨a⟩ : String) ++ "-" ++ (⟨b.map underToColon⟩ : String) ++ "," ++ (⟨c⟩ : String) ++ "]"
  | none => trimSuffix host ".scion"

/-- The munging direction used by the claims: ':' becomes '_'. -/
def colonToUnder (c : Char) : Char := if c = ':' then '_' else c

/-- The munged hostname `D + "-" + (E with ':' -> '_') + "-" + H` that the
round-trip claim feeds to `demunge`. -/
def mungeHost (d e h : String) : String :=
  d ++ "-" ++ (⟨e.data.map colonToUnder⟩ : String) ++ "-" ++ h

/-- Hexadecimal digit, as used by the claims to constrain the entity
segment. -/
def isHexCh (c : Char) : Bool :=
  c.isDigit || ('A' ≤ c && c ≤ 'F') || ('a' ≤ c && c ≤ 'f')

/-- Declarative reading of the structured pattern
`^(digits)-(hex digits and underscores)-(anything)$` as the claims state
it: some decomposition into a non-empty digit run, a non-empty
hex/underscore run and an arbitrary tail. -/
def declMatches (s : String) : Prop :=
  ∃ a b c : List Char,
    s.data = a ++ '-' :: (b ++ '-' :: c) ∧
    a ≠ [] ∧ (∀ x ∈ a, isDig x = true) ∧
    b ≠ [] ∧ (∀ x ∈ b, isHexU x = true)

/-! ## The rewriting pipeline -/

/-- Strip a literal pattern from the front of a list: `some` of the
remainder when `pat` is an initial segment, `none` otherwise. -/
def dropPat : List Char → List Char → Option (List Char)
  | [], s => some s
  | _ :: _, [] => none
  | p :: ps, c :: cs => if p = c then dropPat ps cs else none

theorem dropPat_eq_some_iff {pat s r : List Char} :
    dropPat pat s = some r ↔ s = pat ++ r := by
  induction pat generalizing s with
  | nil => cases s <;> simp [dropPat]
  | cons p ps ih =>
    cases s with
    | nil => simp [dropPat]
    | cons c cs =>
      by_cases hpc : p = c
      · subst hpc
        simp [dropPat, ih]
      · simp [dropPat, hpc, Ne.symm hpc]

theorem dropPat_length {pat s r : List Char} (h : dropPat pat s = some r) :
    r.length + pat.length = s.length := by
  rw [dropPat_eq_some_iff] at h
  subst h
  simp [Nat.add_comm]

/-- The literal text `http://host` (the pattern `http(s)?://` with the
optional `s` absent, followed by the quoted host). -/
def httpPat (host : String) : List Char :=
  'h' :: 't' :: 't' :: 'p' :: ':' :: '/' :: '/' :: host.data

/-- The literal text `https://host` (the optional `s` present). -/
def httpsPat (host : String) : List Char :=
  'h' :: 't' :: 't' :: 'p' :: 's' :: ':' :: '/' :: '/' :: host.data

/-- Characters of a `$name` reference in a replacement template
(`regexp.extract`): letters, digits and underscore.  The template here is
`"http://" + hostMunged` with `hostMunged` an HTTP `Host` header, which
the HTTP layer restricts to ASCII, so the ASCII classes are exact. -/
def isNameCh (c : Char) : Bool := c.isAlphanum || c = '_'

/-- Numeric value of an all-digit reference name. -/
def digitsVal (name : List Char) : Nat :=
  name.foldl (fun acc c => acc * 10 + (c.toNat - 48)) 0

/-- What one `$name`/`${name}` reference inserts, for the pattern
`http(s)?://host`: an all-digit name denoting 0 inserts the whole
matched text and 1 inserts the captured optional `s` (empty when the
plain-`http` alternative matched); every other reference inserts
nothing — a numeric index other than 0 and 1 is out of range (Go also
caps huge numerals, which likewise insert nothing), and a non-numeric
name matches no group of this pattern, whose two groups are unnamed. -/
def expandRef (matched g1 name : List Char) : List Char :=
  if name ≠ [] ∧ ∀ c ∈ name, c.isDigit then
    if digitsVal name = 0 then matched
    else if digitsVal name = 1 then g1
    else []
  else []

/-- One pass of `Regexp.expand` over the replacement template, for a
match with whole text `matched` and optional-`s` group `g1`: `$$` is a
literal dollar; `$name` (name as long as possible) and `${name}` are
references; a dollar not starting a well-formed reference stays literal
text.  `fuel` bounds the recursion and is at least the template length
at every call site, so the fuel-exhausted branch is never taken. -/
def expandLoop (matched g1 : List Char) : Nat → List Char → List Char
  | _, [] => []
  | 0, t => t
  | fuel + 1, c :: rest =>
    if c = '$' then
      match rest with
      | [] => ['$']
      | c2 :: rest2 =>
        if c2 = '$' then '$' :: expandLoop matched g1 fuel rest2
        else if c2 = '{' then
          let name := rest2.takeWhile isNameCh
          let after := rest2.dropWhile isNameCh
          if name ≠ [] ∧ after.head? = some '}' then
            expandRef matched g1 name ++ expandLoop matched g1 fuel after.tail
          else '$' :: expandLoop matched g1 fuel rest
        else
          let name := rest.takeWhile isNameCh
          if name = [] then '$' :: expandLoop matched g1 fuel rest
          else expandRef matched g1 name ++ expandLoop matched g1 fuel (rest.dropWhile isNameCh)
    else c :: expandLoop matched g1 fuel rest

/-- Expansion of a replacement template (`Regexp.expand`). -/
def expand (matched g1 t : List Char) : List Char :=
  expandLoop matched g1 t.length t

/-- Embedding of `replaceMunged`, i.e. of
`reOriginal.ReplaceAll(s, []byte("http://"+hostMunged))`: scan left to
right for non-overlapping matches of `https://host` or `http://host`
(the regex engine prefers the alternative with `s`, and at most one
alternative can match at a given position) and replace each match with
the `$`-template expansion of `"http://" + hostMunged` — `ReplaceAll`
expands the replacement, it does not insert it literally.  `fuel` bounds
the scan and is at least the input length at every call site, so the
fuel-exhausted branch is never taken (every step consumes at least one
character). -/
def replaceLoop (host hostMunged : String) : Nat → List Char → List Char
  | _, [] => []
  | 0, s => s
  | fuel + 1, c :: rest =>
    match dropPat (httpsPat host) (c :: rest) with
    | some s1 =>
      expand (httpsPat host) ['s'] (httpPat hostMunged) ++ replaceLoop host hostMunged fuel s1
    | none =>
      match dropPat (httpPat host) (c :: rest) with
      | some s2 =>
        expand (httpPat host) [] (httpPat hostMunged) ++ replaceLoop host hostMunged fuel s2
      | none => c :: replaceLoop host hostMunged fuel rest

/-- The rewriting applied to header values and HTML bodies. -/
def replaceMunged (host hostMunged : String) (s : List Char) : List Char :=
  replaceLoop host hostMunged s.length s

/-- Spec-side definition, following the claim's words rather than the
code: the same scan but inserting the text `http://hostMunged`
LITERALLY at each match (this is Go's `ReplaceAllLiteral`, which the
program does not call).  It agrees with `replaceMunged` exactly when the
template contains no dollar sign. -/
def replaceLiteralLoop (host hostMunged : String) : Nat → List Char → List Char
  | _, [] => []
  | 0, s => s
  | fuel + 1, c :: rest =>
    match dropPat (httpsPat host) (c :: rest) with
    | some s1 => httpPat hostMunged ++ replaceLiteralLoop host hostMunged fuel s1
    | none =>
      match dropPat (httpPat host) (c :: rest) with
      | some s2 => httpPat hostMunged ++ replaceLiteralLoop host hostMunged fuel s2
      | none => c :: replaceLiteralLoop host hostMunged fuel rest

/-- The literal replacement described by the claim, on a whole input. -/
def replaceLiteral (host hostMunged : String) (s : List Char) : List Char :=
  replaceLiteralLoop host hostMunged s.length s

/-- Whether a literal pattern occurs anywhere in a list. -/
def occursPat (pat : List Char) : List Char → Bool
  | [] => (dropPat pat []).isSome
  | c :: rest => (dropPat pat (c :: rest)).isSome || occursPat pat rest

/-- The scanner `replaceMunged` lifted back to `String`. -/
def replaceMungedStr (host hostMunged v : String) : String :=
  ⟨replaceMunged host hostMunged v.data⟩

/-! ## HTTP data model

Headers are association lists keyed on canonical MIME keys (Go's
`http.Header` is a map; the embedding fixes one iteration order and keeps
the map's unique-key property as an explicit hypothesis where needed). -/

/-- The parts of `http.Request` touched by the handler. -/
structure Request where
  host : String
  urlScheme : String
  urlHost : String
  headers : List (String × List String)

/-- The parts of `http.Response` the handler reads. -/
structure Response where
  statusCode : Nat
  header : List (String × List String)
  body : List Char

/-- What the handler delivers to the client: status written by
`WriteHeader`, the response-writer header map, and the body bytes. -/
structure ClientResult where
  status : Nat
  header : List (String × List String)
  body : List Char
deriving DecidableEq

/-- Embedding of `Header.Add`: append the value to the key's slice, creating the key
at the end when absent. -/
def headerAdd : List (String × List String) → String → String → List (String × List String)
  | [], k, v => [(k, [v])]
  | (k', vs) :: rest, k, v =>
    if k' = k then (k', vs ++ [v]) :: rest else (k', vs) :: headerAdd rest k v

/-- Embedding of `Header.Del`: remove the key. -/
def headerDel (h : List (String × List String)) (k : String) : List (String × List String) :=
  h.filter (fun kv => kv.1 != k)

/-- Embedding of `Header.Get`: first value of the key, `""` when absent. -/
def headerGet (h : List (String × List String)) (k : String) : String :=
  match h.find? (fun kv => kv.1 == k) with
  | some kv => kv.2.headD ""
  | none => ""

/-- Embedding of `strings.HasPrefix`. -/
def hasPfx (s pre : String) : Bool := pre.data.isPrefixOf s.data

/-- Embedding of `copyAndReplaceHeader(dst, src, host, hostMunged)`:
for each key of `src`, each value is rewritten with `replaceMunged` and
added to `dst` in order. -/
def copyAndReplaceHeader (dst src : List (String × List String)) (host hostMunged : String) :
    List (String × List String) :=
  src.foldl
    (fun d kv => kv.2.foldl (fun d' v => headerAdd d' kv.1 (replaceMungedStr host hostMunged v)) d)
    dst

/-- The request mutation performed by `ServeHTTP` before `RoundTrip`:
`req.Host = demunge(req.Host)`, `req.URL.Scheme = "https"`,
`req.URL.Host = demunge(req.Host)`, `req.Header.Del("Accept-Encoding")`. -/
def prepareRequest (req : Request) : Request :=
  { host := demunge req.host
    urlScheme := "https"
    urlHost := demunge req.host
    headers := headerDel req.headers "Accept-Encoding" }

/-- Models `net/http`'s `Error` helper at its documented behaviour: it
sets the plain-text error headers, writes the status code, and writes the
message followed by a newline (`fmt.Fprintln`). -/
def httpError (msg : String) (code : Nat) : ClientResult :=
  { status := code
    header := [("Content-Type", ["text/plain; charset=utf-8"]),
               ("X-Content-Type-Options", ["nosniff"])]
    body := msg.data ++ ['\n'] }

/-- Embedding of `proxyHandler.ServeHTTP`.  The injected transport is a
function from the prepared request to a response or an error (Go's
`RoundTripper.RoundTrip`).  On error the handler replies 503 with the
error text; on success it copies the headers through `replaceMunged`,
writes the upstream status, and rewrites the body only when the
content type starts with `text/html`. -/
def serveHTTP (t : Request → Except String Response) (req : Request) : ClientResult :=
  let hostMunged := req.host
  let host := demunge req.host
  match t (prepareRequest req) with
  | .error err => httpError err 503
  | .ok resp =>
    { status := resp.statusCode
      header := copyAndReplaceHeader [] resp.header host hostMunged
      body :=
        if hasPfx (headerGet resp.header "Content-Type") "text/html"
        then replaceMunged host hostMunged resp.body
        else resp.body }

/-! ## Codec lemmas -/

theorem strEq {a b : String} (h : a.data = b.data) : a = b :=
  congrArg String.mk h

theorem takeWhile_app_of_all {p : Char → Bool} {xs : List Char} (ys : List Char)
    (h : ∀ x ∈ xs, p x = true) :
    (xs ++ ys).takeWhile p = xs ++ ys.takeWhile p := by
  induction xs with
  | nil => simp
  | cons x xs ih =>
    have hx : p x = true := h x (by simp)
    simp only [List.cons_append, List.takeWhile_cons, hx, if_true]
    rw [ih (fun a ha => h a (by simp [ha]))]

theorem dropWhile_app_of_all {p : Char → Bool} {xs : List Char} (ys : List Char)
    (h : ∀ x ∈ xs, p x = true) :
    (xs ++ ys).dropWhile p = ys.dropWhile p := by
  induction xs with
  | nil => simp
  | cons x xs ih =>
    have hx : p x = true := h x (by simp)
    simp only [List.cons_append, List.dropWhile_cons, hx, if_true]
    exact ih (fun a ha => h a (by simp [ha]))

theorem isDig_dash : isDig '-' = false := by decide

theorem isHexU_dash : isHexU '-' = false := by decide

/-- The pattern matcher on a well-formed munged hostname returns exactly
the three segments. -/
theorem findSubmatch_munged (dl el hl : List Char)
    (hd0 : dl ≠ []) (hd : ∀ c ∈ dl, isDig c = true)
    (he0 : el ≠ []) (he : ∀ c ∈ el, isHexU c = true)
    (hh : '\n' ∉ hl) :
    findSubmatch (dl ++ '-' :: (el ++ '-' :: hl)) = some (dl, el, hl) := by
  have htake : (dl ++ '-' :: (el ++ '-' :: hl)).takeWhile isDig = dl := by
    rw [takeWhile_app_of_all _ hd]
    simp [List.takeWhile_cons, isDig_dash]
  have hdrop : (dl ++ '-' :: (el ++ '-' :: hl)).dropWhile isDig = '-' :: (el ++ '-' :: hl) := by
    rw [dropWhile_app_of_all _ hd]
    simp [List.dropWhile_cons, isDig_dash]
  have htake2 : (el ++ '-' :: hl).takeWhile isHexU = el := by
    rw [takeWhile_app_of_all _ he]
    simp [List.takeWhile_cons, isHexU_dash]
  have hdrop2 : (el ++ '-' :: hl).dropWhile isHexU = '-' :: hl := by
    rw [dropWhile_app_of_all _ he]
    simp [List.dropWhile_cons, isHexU_dash]
  rw [findSubmatch]
  simp [htake, hdrop, htake2, hdrop2, hd0, he0, hh]

/-- Soundness of the matcher: a successful match decomposes the input. -/
theorem findSubmatch_eq_some {s a b c : List Char}
    (h : findSubmatch s = some (a, b, c)) :
    s = a ++ '-' :: (b ++ '-' :: c) ∧
    a ≠ [] ∧ (∀ x ∈ a, isDig x = true) ∧
    b ≠ [] ∧ (∀ x ∈ b, isHexU x = true) := by
  rw [findSubmatch] at h
  split at h
  next c1 r2 hdrop =>
    by_cases h1 : c1 = '-' ∧ s.takeWhile isDig ≠ []
    · rw [if_pos h1] at h
      obtain ⟨hc1, ha0⟩ := h1
      subst hc1
      split at h
      next c2 cc hdrop2 =>
        by_cases h2 : c2 = '-' ∧ r2.takeWhile isHexU ≠ [] ∧ '\n' ∉ cc
        · rw [if_pos h2] at h
          obtain ⟨hc2, hb0, _⟩ := h2
          subst hc2
          obtain ⟨ha, hb, hc⟩ : s.takeWhile isDig = a ∧ r2.takeWhile isHexU = b ∧ cc = c := by
            simpa using h
          subst ha
          subst hb
          subst hc
          refine ⟨?_, ha0, fun x hx => List.mem_takeWhile_imp hx, hb0,
            fun x hx => List.mem_takeWhile_imp hx⟩
          have hr2 : r2 = r2.takeWhile isHexU ++ '-' :: cc := by
            conv_lhs => rw [← List.takeWhile_append_dropWhile (p := isHexU) (l := r2)]
            rw [hdrop2]
          calc s = s.takeWhile isDig ++ s.dropWhile isDig :=
                (List.takeWhile_append_dropWhile isDig s).symm
            _ = s.takeWhile isDig ++ '-' :: r2 := by rw [hdrop]
            _ = s.takeWhile isDig ++ '-' :: (r2.takeWhile isHexU ++ '-' :: cc) := by
                conv_lhs => rw [hr2]
        · rw [if_neg h2] at h
          simp at h
      next => simp at h
    · rw [if_neg h1] at h
      simp at h
  next => simp at h

theorem declMatches_of_findSubmatch {host : String} {a b c : List Char}
    (h : findSubmatch host.data = some (a, b, c)) : declMatches host := by
  obtain ⟨hs, ha0, ha, hb0, hb⟩ := findSubmatch_eq_some h
  exact ⟨a, b, c, hs, ha0, ha, hb0, hb⟩

theorem findSubmatch_of_not_declMatches {host : String} (h : ¬ declMatches host) :
    findSubmatch host.data = none := by
  cases hf : findSubmatch host.data with
  | none => rfl
  | some abc =>
    obtain ⟨a, b, c⟩ := abc
    exact absurd (declMatches_of_findSubmatch hf) h

theorem demunge_no_match {host : String} (h : findSubmatch host.data = none) :
    demunge host = trimSuffix host ".scion" := by
  rw [demunge, h]

theorem declMatches_dash {s : String} (h : declMatches s) : '-' ∈ s.data := by
  obtain ⟨a, b, c, hs, _⟩ := h
  rw [hs]
  simp

theorem trimSuffix_append (p suf : String) : trimSuffix (p ++ suf) suf = p := by
  rw [trimSuffix]
  rw [if_pos]
  · apply strEq
    simp [String.data_append, Nat.add_sub_cancel, List.take_left]
  · rw [List.isSuffixOf_iff_suffix, String.data_append]
    exact List.suffix_append p.data suf.data

theorem trimSuffix_of_not_suffix {s suf : String} (h : ¬ suf.data <:+ s.data) :
    trimSuffix s suf = s := by
  rw [trimSuffix, if_neg]
  intro hc
  exact h (List.isSuffixOf_iff_suffix.mp hc)

theorem mungeHost_data (d e h : String) :
    (mungeHost d e h).data = d.data ++ '-' :: (e.data.map colonToUnder ++ '-' :: h.data) := by
  have hdash : ("-" : String).data = ['-'] := by decide
  simp [mungeHost, String.data_append, hdash]

theorem isHexU_of_isHexCh {c : Char} (h : isHexCh c = true) : isHexU c = true := by
  simp only [isHexCh, Bool.or_eq_true] at h
  simp only [isHexU, Bool.or_eq_true]
  tauto

theorem isHexCh_ne_under {c : Char} (h : isHexCh c = true) : c ≠ '_' := by
  intro hc
  subst hc
  exact absurd h (by decide)

theorem isHexCh_ne_colon {c : Char} (h : isHexCh c = true) : c ≠ ':' := by
  intro hc
  subst hc
  exact absurd h (by decide)

theorem underToColon_colonToUnder {c : Char} (h : isHexCh c = true ∨ c = ':') :
    underToColon (colonToUnder c) = c := by
  rcases h with hx | hcolon
  · have h1 : c ≠ ':' := isHexCh_ne_colon hx
    have h2 : c ≠ '_' := isHexCh_ne_under hx
    simp [colonToUnder, underToColon, h1, h2]
  · subst hcolon
    simp [colonToUnder, underToColon]

theorem map_under_colon (l : List Char) (h : ∀ c ∈ l, isHexCh c = true ∨ c = ':') :
    (l.map colonToUnder).map underToColon = l := by
  induction l with
  | nil => rfl
  | cons x xs ih =>
    simp only [List.map_cons]
    rw [underToColon_colonToUnder (h x (by simp)), ih (fun c hc => h c (by simp [hc]))]

/-! ## Claims about the address codec -/

/-- C1 (amended): for every canonical triple `(D, E, H)` with `D` a
non-empty digit string, `E` a non-empty string of hexadecimal digits and
colons, and `H` free of newline characters, demunging the munged hostname
`D ++ "-" ++ (E with ':' replaced by '_') ++ "-" ++ H` yields the
canonical bracketed string `"[" ++ D ++ "-" ++ E ++ "," ++ H ++ "]"`;
the underscore/colon substitution on the entity segment is inverted
exactly. -/
theorem demunge_roundtrip (d e h : String)
    (hd0 : d.data ≠ []) (hd : ∀ c ∈ d.data, isDig c = true)
    (he0 : e.data ≠ []) (he : ∀ c ∈ e.data, isHexCh c = true ∨ c = ':')
    (hh : '\n' ∉ h.data) :
    demunge (mungeHost d e h) = "[" ++ d ++ "-" ++ e ++ "," ++ h ++ "]" := by
  have hmap : ∀ c ∈ e.data.map colonToUnder, isHexU c = true := by
    intro x hx
    obtain ⟨c, hc, hcx⟩ := List.mem_map.mp hx
    subst hcx
    rcases he c hc with hhex | hcolon
    · have hne : c ≠ ':' := isHexCh_ne_colon hhex
      simpa [colonToUnder, hne] using isHexU_of_isHexCh hhex
    · subst hcolon
      decide
  have hne : e.data.map colonToUnder ≠ [] := by
    simpa using he0
  have hfind : findSubmatch (mungeHost d e h).data
      = some (d.data, e.data.map colonToUnder, h.data) := by
    rw [mungeHost_data]
    exact findSubmatch_munged _ _ _ hd0 hd hne hmap hh
  rw [demunge, hfind]
  apply strEq
  simp [String.data_append, map_under_colon e.data he]

/-- C1 counterexample: the claim as stated quantifies over arbitrary host
tokens, but the third capture group of the Go pattern is `(.*)$` and `.`
does not match a newline, so a host token containing a newline falls to
the pass-through branch instead of round-tripping. -/
theorem demunge_roundtrip_counterexample :
    (("1" : String).data ≠ [] ∧ (∀ c ∈ ("1" : String).data, isDig c = true)) ∧
    (("f" : String).data ≠ [] ∧ (∀ c ∈ ("f" : String).data, isHexCh c = true ∨ c = ':')) ∧
    demunge (mungeHost "1" "f" "\n") ≠ "[" ++ "1" ++ "-" ++ "f" ++ "," ++ "\n" ++ "]" := by
  refine ⟨⟨by decide, by decide⟩, ⟨by decide, by decide⟩, ?_⟩
  decide

/-- C1 witness: the round trip evaluated at the spec's own concrete
address. -/
theorem demunge_roundtrip_witness :
    demunge (mungeHost "1" "ff00:0:110" "192.0.2.1")
      = "[" ++ "1" ++ "-" ++ "ff00:0:110" ++ "," ++ "192.0.2.1" ++ "]" :=
  demunge_roundtrip "1" "ff00:0:110" "192.0.2.1"
    (by decide) (by decide) (by decide) (by decide) (by decide)

/-- C2 (amended): on the munged hostname carrying the `.scion` marker the
structured pattern still matches, with the marker absorbed into the host
token, so `demunge "1-ff00_0_110-192.0.2.1.scion"` returns
`"[1-ff00:0:110,192.0.2.1.scion]"`; the claimed output
`"[1-ff00:0:110,192.0.2.1]"` is produced for the suffix-free input
`"1-ff00_0_110-192.0.2.1"`. -/
theorem demunge_scenario :
    demunge "1-ff00_0_110-192.0.2.1.scion" = "[1-ff00:0:110,192.0.2.1.scion]" ∧
    demunge "1-ff00_0_110-192.0.2.1" = "[1-ff00:0:110,192.0.2.1]" := by
  constructor
  · decide
  · decide

/-- C2 counterexample: `demunge` does not strip the `.scion` marker on
the pattern-match path, contradicting the claimed output. -/
theorem demunge_scenario_counterexample :
    demunge "1-ff00_0_110-192.0.2.1.scion" ≠ "[1-ff00:0:110,192.0.2.1]" := by
  decide

/-- C3: any hostname that does not match the structured pattern
`^(digits)-(hex digits and underscores)-(anything)$` is passed through
with a single trailing `.scion` removed when present (`demunge` is total
by construction). -/
theorem demunge_pass_through (host : String) (h : ¬ declMatches host) :
    demunge host = trimSuffix host ".scion" :=
  demunge_no_match (findSubmatch_of_not_declMatches h)

/-- C3 witness: a plain hostname with the marker suffix. -/
theorem demunge_pass_through_witness :
    demunge "example.com.scion" = trimSuffix "example.com.scion" ".scion" :=
  demunge_pass_through "example.com.scion"
    (fun hm => absurd (declMatches_dash hm) (by decide))

/-- C10: on the pass-through path at most one trailing `.scion` is
removed, and only at the very end: `"example.scion.scion"` demunges to
`"example.scion"`; a non-matching hostname of the shape `p ++ ".scion"`
loses exactly the final marker, keeping any earlier `.scion` inside `p`;
and a non-matching hostname that does not end in `".scion"` is returned
unchanged. -/
theorem demunge_single_suffix :
    demunge "example.scion.scion" = "example.scion" ∧
    (∀ p : String, ¬ declMatches (p ++ ".scion") → demunge (p ++ ".scion") = p) ∧
    (∀ h : String, ¬ declMatches h → ¬ (".scion" : String).data <:+ h.data → demunge h = h) := by
  refine ⟨by decide, ?_, ?_⟩
  · intro p hp
    rw [demunge_no_match (findSubmatch_of_not_declMatches hp)]
    exact trimSuffix_append p ".scion"
  · intro h hm hs
    rw [demunge_no_match (findSubmatch_of_not_declMatches hm)]
    exact trimSuffix_of_not_suffix hs

/-- C10 witness: stripping exactly one marker from
`"example.scion" ++ ".scion"`. -/
theorem demunge_single_suffix_witness :
    demunge ("example.scion" ++ ".scion") = "example.scion" :=
  demunge_single_suffix.2.1 "example.scion"
    (fun hm => absurd (declMatches_dash hm) (by decide))

/-! ## Pipeline lemmas -/

theorem occursPat_cons_false {pat : List Char} {c : Char} {rest : List Char}
    (h : occursPat pat (c :: rest) = false) :
    dropPat pat (c :: rest) = none ∧ occursPat pat rest = false := by
  rw [occursPat] at h
  simp only [Bool.or_eq_false_iff] at h
  obtain ⟨ha, hb⟩ := h
  refine ⟨?_, hb⟩
  cases hd : dropPat pat (c :: rest) with
  | none => rfl
  | some s1 =>
    rw [hd] at ha
    simp at ha

theorem replaceLoop_of_not_occurs (host hostMunged : String) (fuel : Nat) (v : List Char)
    (h1 : occursPat (httpsPat host) v = false)
    (h2 : occursPat (httpPat host) v = false) :
    replaceLoop host hostMunged fuel v = v := by
  induction fuel generalizing v with
  | zero => cases v <;> rfl
  | succ n ih =>
    cases v with
    | nil => rfl
    | cons c rest =>
      obtain ⟨hn1, hr1⟩ := occursPat_cons_false h1
      obtain ⟨hn2, hr2⟩ := occursPat_cons_false h2
      simp only [replaceLoop, hn1, hn2]
      rw [ih rest hr1 hr2]

/-- A scan that never finds either pattern copies its input verbatim. -/
theorem replaceMunged_of_not_occurs (host hostMunged : String) (v : List Char)
    (h1 : occursPat (httpsPat host) v = false)
    (h2 : occursPat (httpPat host) v = false) :
    replaceMunged host hostMunged v = v :=
  replaceLoop_of_not_occurs host hostMunged v.length v h1 h2

theorem expandLoop_no_dollar (matched g1 : List Char) (fuel : Nat) (t : List Char)
    (h : '$' ∉ t) : expandLoop matched g1 fuel t = t := by
  induction fuel generalizing t with
  | zero => cases t <;> rfl
  | succ n ih =>
    cases t with
    | nil => rfl
    | cons c rest =>
      have hc : ¬ c = '$' := fun hcc => h (by simp [hcc])
      have hrest : '$' ∉ rest := fun hm => h (by simp [hm])
      simp only [expandLoop, if_neg hc]
      rw [ih rest hrest]

/-- A dollar-free template expands to itself. -/
theorem expand_no_dollar (matched g1 t : List Char) (h : '$' ∉ t) :
    expand matched g1 t = t :=
  expandLoop_no_dollar matched g1 t.length t h

theorem not_dollar_httpPat {hostMunged : String} (hds : '$' ∉ hostMunged.data) :
    '$' ∉ httpPat hostMunged := by
  intro hmem
  simp only [httpPat, List.mem_cons] at hmem
  rcases hmem with h|h|h|h|h|h|h|hmem2
  any_goals exact absurd h (by decide)
  exact hds hmem2

theorem replaceLoop_eq_literal (host hostMunged : String) (hds : '$' ∉ hostMunged.data)
    (fuel : Nat) (v : List Char) :
    replaceLoop host hostMunged fuel v = replaceLiteralLoop host hostMunged fuel v := by
  have htpl := expand_no_dollar (httpsPat host) ['s'] (httpPat hostMunged)
    (not_dollar_httpPat hds)
  have htpl2 := expand_no_dollar (httpPat host) [] (httpPat hostMunged)
    (not_dollar_httpPat hds)
  induction fuel generalizing v with
  | zero => cases v <;> rfl
  | succ n ih =>
    cases v with
    | nil => rfl
    | cons c rest =>
      cases hd1 : dropPat (httpsPat host) (c :: rest) with
      | some s1 =>
        simp only [replaceLoop, replaceLiteralLoop, hd1]
        rw [htpl, ih s1]
      | none =>
        cases hd2 : dropPat (httpPat host) (c :: rest) with
        | some s2 =>
          simp only [replaceLoop, replaceLiteralLoop, hd1, hd2]
          rw [htpl2, ih s2]
        | none =>
          simp only [replaceLoop, replaceLiteralLoop, hd1, hd2]
          rw [ih rest]

/-- When the original host carries no dollar sign, the program's
template-expanding replacement coincides with the literal replacement
the claim describes. -/
theorem replaceMunged_eq_literal (host hostMunged : String) (hds : '$' ∉ hostMunged.data)
    (v : List Char) :
    replaceMunged host hostMunged v = replaceLiteral host hostMunged v :=
  replaceLoop_eq_literal host hostMunged hds v.length v

theorem headerAdd_of_not_mem {dst : List (String × List String)} {k : String} (v : String)
    (h : ∀ kv ∈ dst, kv.1 ≠ k) :
    headerAdd dst k v = dst ++ [(k, [v])] := by
  induction dst with
  | nil => rfl
  | cons kv rest ih =>
    obtain ⟨k', vs⟩ := kv
    have hk : k' ≠ k := h (k', vs) (by simp)
    simp only [headerAdd, if_neg hk, List.cons_append]
    rw [ih (fun kv hkv => h kv (by simp [hkv]))]

theorem headerAdd_last {k : String} (dst : List (String × List String))
    (acc : List String) (v : String) (h : ∀ kv ∈ dst, kv.1 ≠ k) :
    headerAdd (dst ++ [(k, acc)]) k v = dst ++ [(k, acc ++ [v])] := by
  induction dst with
  | nil => simp [headerAdd]
  | cons kv rest ih =>
    obtain ⟨k', vs⟩ := kv
    have hk : k' ≠ k := h (k', vs) (by simp)
    simp only [List.cons_append, headerAdd, if_neg hk, List.append_eq]
    rw [ih (fun kv hkv => h kv (by simp [hkv]))]

theorem foldl_headerAdd_acc {k : String} (f : String → String) (vs : List String)
    (dst : List (String × List String)) (acc : List String)
    (h : ∀ kv ∈ dst, kv.1 ≠ k) :
    vs.foldl (fun d v => headerAdd d k (f v)) (dst ++ [(k, acc)])
      = dst ++ [(k, acc ++ vs.map f)] := by
  induction vs generalizing acc with
  | nil => simp
  | cons v vs ih =>
    rw [List.foldl_cons, headerAdd_last dst acc (f v) h, ih (acc ++ [f v])]
    simp

theorem foldl_headerAdd_all {k : String} (f : String → String) {vs : List String}
    (dst : List (String × List String)) (h : ∀ kv ∈ dst, kv.1 ≠ k) (hne : vs ≠ []) :
    vs.foldl (fun d v => headerAdd d k (f v)) dst = dst ++ [(k, vs.map f)] := by
  cases vs with
  | nil => exact absurd rfl hne
  | cons v vs =>
    rw [List.foldl_cons, headerAdd_of_not_mem (f v) h, foldl_headerAdd_acc f vs dst [f v] h]
    simp

/-- The header-copy loop on a map-shaped source (unique keys, no empty
value slices) rewrites each value in place. -/
theorem copyHeader_eq_map (src : List (String × List String)) (host hostMunged : String)
    (dst : List (String × List String))
    (hnd : (src.map Prod.fst).Nodup)
    (hne : ∀ kv ∈ src, kv.2 ≠ [])
    (hdisj : ∀ kv ∈ dst, ∀ kv' ∈ src, kv.1 ≠ kv'.1) :
    copyAndReplaceHeader dst src host hostMunged
      = dst ++ src.map (fun kv => (kv.1, kv.2.map (replaceMungedStr host hostMunged))) := by
  induction src generalizing dst with
  | nil => simp [copyAndReplaceHeader]
  | cons kv rest ih =>
    obtain ⟨k, vs⟩ := kv
    rw [List.map_cons, List.nodup_cons] at hnd
    obtain ⟨hk_notin, hnd'⟩ := hnd
    have hfold : vs.foldl (fun d v => headerAdd d k (replaceMungedStr host hostMunged v)) dst
        = dst ++ [(k, vs.map (replaceMungedStr host hostMunged))] :=
      foldl_headerAdd_all _ dst
        (fun kv hkv => hdisj kv hkv (k, vs) (by simp))
        (hne (k, vs) (by simp))
    have hdisj' : ∀ kv ∈ dst ++ [(k, vs.map (replaceMungedStr host hostMunged))],
        ∀ kv' ∈ rest, kv.1 ≠ kv'.1 := by
      intro kv hkv kv' hkv'
      rcases List.mem_append.mp hkv with hin | hlast
      · exact hdisj kv hin kv' (by simp [hkv'])
      · have : kv = (k, vs.map (replaceMungedStr host hostMunged)) := by simpa using hlast
        subst this
        intro heq
        exact hk_notin (heq ▸ List.mem_map_of_mem Prod.fst hkv')
    have := ih (dst ++ [(k, vs.map (replaceMungedStr host hostMunged))]) hnd'
      (fun kv hkv => hne kv (by simp [hkv])) hdisj'
    simp only [copyAndReplaceHeader, List.foldl_cons] at this ⊢
    rw [hfold, this]
    simp

theorem serveHTTP_error {t : Request → Except String Response} {req : Request} {e : String}
    (h : t (prepareRequest req) = Except.error e) :
    serveHTTP t req = httpError e 503 := by
  simp only [serveHTTP, h]

theorem serveHTTP_ok {t : Request → Except String Response} {req : Request} {resp : Response}
    (h : t (prepareRequest req) = Except.ok resp) :
    serveHTTP t req =
      { status := resp.statusCode
        header := copyAndReplaceHeader [] resp.header (demunge req.host) req.host
        body :=
          if hasPfx (headerGet resp.header "Content-Type") "text/html"
          then replaceMunged (demunge req.host) req.host resp.body
          else resp.body } := by
  simp only [serveHTTP, h]

/-! ## Concrete collaborators for witnesses -/

/-- A sample inbound request addressed to the munged SCION hostname. -/
def reqEx : Request :=
  { host := "1-ff00_0_110-192.0.2.1"
    urlScheme := "http"
    urlHost := "1-ff00_0_110-192.0.2.1"
    headers := [("Accept-Encoding", ["gzip"]), ("Accept", ["*/*"])] }

/-- A JSON response whose body textually contains the canonical host. -/
def respJson : Response :=
  { statusCode := 200
    header := [("Content-Type", ["application/json"])]
    body := ("see https://[1-ff00:0:110,192.0.2.1]/a").data }

/-- A transport that always succeeds with `respJson`. -/
def tJson : Request → Except String Response := fun _ => Except.ok respJson

/-- An HTML redirect response. -/
def respHtml : Response :=
  { statusCode := 301
    header := [("Content-Type", ["text/html"]),
               ("Location", ["https://[1-ff00:0:110,192.0.2.1]/path"])]
    body := ("https://[1-ff00:0:110,192.0.2.1]/path").data }

/-- A transport that always succeeds with `respHtml`. -/
def tHtml : Request → Except String Response := fun _ => Except.ok respHtml

/-- A transport that always fails. -/
def tErr : Request → Except String Response := fun _ => Except.error "dial failed"

/-- A response carrying a header key with no values. -/
def respEmpty : Response :=
  { statusCode := 200, header := [("X-Empty", [])], body := [] }

/-- A transport that always succeeds with `respEmpty`. -/
def tEmpty : Request → Except String Response := fun _ => Except.ok respEmpty

/-- A request whose `Host` contains a dollar sign (a byte the HTTP layer
accepts in a `Host` header); it matches no structured pattern, so it
demunges to itself and the rewrite pair is `("a$1", "a$1")`. -/
def reqDollar : Request :=
  { host := "a$1", urlScheme := "http", urlHost := "a$1", headers := [] }

/-- A response with a `Location` header naming the canonical host of
`reqDollar`. -/
def respDollar : Response :=
  { statusCode := 200, header := [("Location", ["https://a$1"])], body := [] }

/-- A transport that always succeeds with `respDollar`. -/
def tDollar : Request → Except String Response := fun _ => Except.ok respDollar

/-! ## Claims about the proxy pipeline -/

/-- C4 (amended): on the success path every delivered header value is
the upstream value with each occurrence of `http://host` or
`https://host` rewritten, where `host = demunge` of the original `Host`
and `hostMunged` is the original `Host`.  Because the code calls
`ReplaceAll`, the inserted text is the `$`-template expansion of
`"http://" + hostMunged`; provided the original `Host` contains no
dollar sign — the template is then dollar-free — the rewriting is
exactly the literal substitution the claim describes, and a value
containing no occurrence of either pattern is delivered byte-identical. -/
theorem response_header_rewrite
    (t : Request → Except String Response) (req : Request) (resp : Response)
    (hok : t (prepareRequest req) = Except.ok resp)
    (hnd : (resp.header.map Prod.fst).Nodup)
    (hne : ∀ kv ∈ resp.header, kv.2 ≠ [])
    (hds : '$' ∉ req.host.data) :
    (serveHTTP t req).header
      = resp.header.map (fun kv => (kv.1, kv.2.map (replaceMungedStr (demunge req.host) req.host)))
    ∧ (∀ v : List Char,
        replaceMunged (demunge req.host) req.host v
          = replaceLiteral (demunge req.host) req.host v)
    ∧ ∀ v : List Char,
        occursPat (httpPat (demunge req.host)) v = false →
        occursPat (httpsPat (demunge req.host)) v = false →
        replaceMunged (demunge req.host) req.host v = v := by
  refine ⟨?_, ?_, ?_⟩
  · rw [serveHTTP_ok hok]
    simpa using copyHeader_eq_map resp.header (demunge req.host) req.host [] hnd hne (by simp)
  · exact fun v => replaceMunged_eq_literal _ _ hds v
  · exact fun v hv1 hv2 => replaceMunged_of_not_occurs _ _ v hv2 hv1

/-- C4 counterexample: a `Host` containing a dollar sign refutes the
literal-replacement claim.  For `host = hostMunged = "a$1"` the header
value `"https://a$1"` matches, and `ReplaceAll` expands the template
`"http://a$1"`: `$1` is the captured optional `"s"`, so the program
emits `"http://as"`, not the claimed literal `"http://a$1"` (which is
what `replaceLiteral` produces). -/
theorem response_header_rewrite_counterexample :
    (serveHTTP tDollar reqDollar).header = [("Location", ["http://as"])] ∧
    (serveHTTP tDollar reqDollar).header ≠ [("Location", ["http://a$1"])] ∧
    replaceLiteral (demunge reqDollar.host) reqDollar.host ("https://a$1").data
      = ("http://a$1").data := by
  refine ⟨by decide, by decide, by decide⟩

/-- C4 witness: at a dollar-free host, a header value with no occurrence
of the canonical host is left byte-identical. -/
theorem response_header_rewrite_witness :
    replaceMunged (demunge reqEx.host) reqEx.host ("hello").data = ("hello").data :=
  (response_header_rewrite tJson reqEx respJson rfl (by decide) (by decide) (by decide)).2.2
    ("hello").data (by decide) (by decide)

/-- C5: a transport error short-circuits the pipeline: the client gets
status 503 with the error text as body (plus the newline the standard
error helper appends) and the fixed plain-text error headers — no
upstream header or body rewriting happens. -/
theorem error_path (t : Request → Except String Response) (req : Request) (e : String)
    (h : t (prepareRequest req) = Except.error e) :
    serveHTTP t req = httpError e 503 ∧
    (serveHTTP t req).status = 503 ∧
    (serveHTTP t req).body = e.data ++ ['\n'] := by
  have he := serveHTTP_error h
  refine ⟨he, ?_, ?_⟩
  · rw [he]
    rfl
  · rw [he]
    rfl

/-- C5 witness: the failing transport yields the 503 error reply. -/
theorem error_path_witness : serveHTTP tErr reqEx = httpError "dial failed" 503 :=
  (error_path tErr reqEx "dial failed" rfl).1

/-- C6: the body substitution is applied exactly when the response
`Content-Type` starts with `text/html`; any other content type is copied
byte for byte, even if the body contains the canonical host string. -/
theorem body_rewrite_scope
    (t : Request → Except String Response) (req : Request) (resp : Response)
    (hok : t (prepareRequest req) = Except.ok resp) :
    (hasPfx (headerGet resp.header "Content-Type") "text/html" = true →
       (serveHTTP t req).body = replaceMunged (demunge req.host) req.host resp.body) ∧
    (hasPfx (headerGet resp.header "Content-Type") "text/html" = false →
       (serveHTTP t req).body = resp.body) := by
  rw [serveHTTP_ok hok]
  constructor
  · intro hct
    simp [hct]
  · intro hct
    simp [hct]

/-- C6 witness: the JSON body containing the canonical host is delivered
unchanged. -/
theorem body_rewrite_scope_witness :
    (serveHTTP tJson reqEx).body = respJson.body :=
  (body_rewrite_scope tJson reqEx respJson rfl).2 (by decide)

/-- C7: before the transport is invoked (it receives exactly
`prepareRequest req`), the request's `Host` and `URL.Host` are the
demunged original host, the scheme is `https`, and no `Accept-Encoding`
header remains. -/
theorem prepare_request (req : Request) :
    (prepareRequest req).host = demunge req.host ∧
    (prepareRequest req).urlHost = demunge req.host ∧
    (prepareRequest req).urlScheme = "https" ∧
    ∀ kv ∈ (prepareRequest req).headers, kv.1 ≠ "Accept-Encoding" := by
  refine ⟨rfl, rfl, rfl, ?_⟩
  intro kv hkv
  simp only [prepareRequest, headerDel] at hkv
  have := List.of_mem_filter hkv
  simpa using this

/-- C7 witness: the sample request's `Accept-Encoding` header is gone
after preparation. -/
theorem prepare_request_witness :
    ("Accept-Encoding", ["gzip"]) ∉ (prepareRequest reqEx).headers :=
  fun hmem => (prepare_request reqEx).2.2.2 _ hmem rfl

/-- C8: on the success path the upstream status code is delivered
unchanged. -/
theorem status_pass_through
    (t : Request → Except String Response) (req : Request) (resp : Response)
    (hok : t (prepareRequest req) = Except.ok resp) :
    (serveHTTP t req).status = resp.statusCode := by
  rw [serveHTTP_ok hok]

/-- C8 witness: the 301 from the HTML transport is passed through. -/
theorem status_pass_through_witness :
    (serveHTTP tHtml reqEx).status = 301 :=
  status_pass_through tHtml reqEx respHtml rfl

/-- C9 (amended): for an upstream header map (unique keys) in which every
key has at least one value, the delivered header map has exactly the same
keys in the same order, the same number of values per key in the same
order, and only the value strings are transformed; a key with an empty
value slice is dropped by the copy loop (the counterexample), which
cannot arise for a response parsed off the wire. -/
theorem header_structure (src : List (String × List String)) (host hostMunged : String)
    (hnd : (src.map Prod.fst).Nodup)
    (hne : ∀ kv ∈ src, kv.2 ≠ []) :
    copyAndReplaceHeader [] src host hostMunged
      = src.map (fun kv => (kv.1, kv.2.map (replaceMungedStr host hostMunged))) := by
  simpa using copyHeader_eq_map src host hostMunged [] hnd hne (by simp)

/-- C9 counterexample: a response header key with an empty value slice is
not present in the delivered header map, so the key sets differ. -/
theorem header_structure_counterexample :
    (serveHTTP tEmpty reqEx).header.map Prod.fst ≠ respEmpty.header.map Prod.fst := by
  decide

/-- C9 witness: a singleton header map is rewritten value-wise. -/
theorem header_structure_witness :
    copyAndReplaceHeader [] [("A", ["x"])] "h" "m"
      = [("A", ["x"].map (replaceMungedStr "h" "m"))] :=
  header_structure [("A", ["x"])] "h" "m" (by decide) (by decide)

end SkipProxy
